import Mathlib

/-!
Verification of the event-pipeline core of `vcxproj.py`, a layout-preserving
parser/manipulator/writer for Visual Studio project files.

The Python source is a cooperative-coroutine pipeline.  Here each stage is
embedded as a pure function on event lists:

* a coroutine that only forwards items becomes a function
  `List Event → List Event` (state passed explicitly);
* the one-token-lookahead stage `to_lines` becomes an explicit step function
  on a small state type (the replay/push-back of the peeked event is inlined
  as the dispatch on that state);
* a subcoroutine with a return value (`skip_to`, `set_content`) becomes a
  function returning the forwarded items, an optional return value (with
  `none` meaning the input ended while the subcoroutine was suspended at a
  `yield`), and the unconsumed remainder of the input;
* a Python `assert` failure (`AssertionError`) and the labelled duplicate
  assert of `set_content` become `Except.error` values, which model the
  exception propagating out of the Expat callback and aborting the rewrite
  before the output file is written.
-/

/-- Ordered attribute list: the Python side uses `OrderedDict`, whose only
relevant behaviour is preserving insertion order, so an association list. -/
abbrev Attrs := List (String × String)

/-- Parsed items flowing through the pipeline: the `(action, params)` pairs
`("start_elem", …)`, `("end_elem", …)`, `("chars", …)`, `("noop", …)`. -/
inductive Event where
  | startElem (name : String) (attrs : Attrs)
  | endElem (name : String)
  | chars (content : String)
  | noop
deriving DecidableEq, Repr

/-- `params["attrs"]` of a `start_elem` item (only ever read on one). -/
def Event.attrs : Event → Attrs
  | .startElem _ a => a
  | _ => []

/-- True on a `noop` item. -/
def Event.isNoop : Event → Bool
  | .noop => true
  | _ => false

/-- Line items produced by `to_lines`: `start_elem_line`, `empty_elem_line`,
`content_elem_line`, `end_elem_line`. -/
inductive Line where
  | startLine (name : String) (attrs : Attrs)
  | emptyLine (name : String) (attrs : Attrs)
  | contentLine (name : String) (attrs : Attrs) (content : String)
  | endLine (name : String)
deriving DecidableEq, Repr

/-! ## String helpers mirroring the Python string operations -/

/-- Characters removed by Python `str.strip()` with no arguments. -/
def pyIsSpace (c : Char) : Bool :=
  c = ' ' || c = '\t' || c = '\n' || c = '\r' || c = '\x0b' || c = '\x0c'

/-- Model of Python `not s.strip()`: the string consists of whitespace only
(vacuously true for the empty string). -/
def pyStripEmpty (s : String) : Bool :=
  s.data.all pyIsSpace

/-- Model of Python `"\n" in s`. -/
def strContainsNl (s : String) : Bool :=
  s.data.any (fun c => c = '\n')

/-- Model of Python `s * n` for a repetition count `n` (strings). -/
def strRepeat : Nat → String → String
  | 0, _ => ""
  | n + 1, s => s ++ strRepeat n s

/-- `xml_indent` (source line 245): `"  " * n`.  The count is an `Int`
because `compute_indent` counts with a Python int; a negative count yields
the empty string exactly as in Python. -/
def xml_indent (n : Int) : String :=
  strRepeat n.toNat "  "

/-- Model of Python `s.replace(pat, rep)` for a single-character pattern
(the only patterns `quoteattr` uses). -/
def chrReplace (s : String) (pat : Char) (rep : String) : String :=
  String.join (s.data.map (fun c => if c = pat then rep else String.mk [c]))

/-- Model of `xml.sax.saxutils.escape` with the extra entity table that
`quoteattr` passes (`\n`, `\r`, `\t` become character references). -/
def saxEscapeAttr (s : String) : String :=
  let s := chrReplace s '&' "&amp;"
  let s := chrReplace s '>' "&gt;"
  let s := chrReplace s '<' "&lt;"
  let s := chrReplace s '\n' "&#10;"
  let s := chrReplace s '\r' "&#13;"
  chrReplace s '\t' "&#9;"

/-- Model of `xml.sax.saxutils.quoteattr`: escape, then pick the quote
character exactly as the Python implementation does. -/
def quoteattr (v : String) : String :=
  let data := saxEscapeAttr v
  if data.data.any (fun c => c = '"') then
    if data.data.any (fun c => c = '\'') then
      "\"" ++ chrReplace data '"' "&quot;" ++ "\""
    else
      "'" ++ data ++ "'"
  else
    "\"" ++ data ++ "\""

/-- `xml_attrs` (source lines 261-263): `" name=value"` for each attribute,
in stored order. -/
def xml_attrs (attrs : Attrs) : String :=
  String.join (attrs.map (fun p => " " ++ p.1 ++ "=" ++ quoteattr p.2))

/-- `xml_tag_open_elem` (source lines 249-250). -/
def xml_tag_open_elem (name : String) (attrs : Attrs) : String :=
  "<" ++ name ++ xml_attrs attrs ++ ">"

/-- `xml_tag_empty_elem` (source lines 253-254). -/
def xml_tag_empty_elem (name : String) (attrs : Attrs) : String :=
  "<" ++ name ++ xml_attrs attrs ++ " />"

/-- `xml_tag_close_elem` (source lines 257-258). -/
def xml_tag_close_elem (name : String) : String :=
  "</" ++ name ++ ">"

/-- Model of Python `s.split("\n")` on the character list of `s`. -/
def splitNlChars : List Char → List String
  | [] => [""]
  | c :: rest =>
    if c = '\n' then "" :: splitNlChars rest
    else
      match splitNlChars rest with
      | [] => [String.mk [c]]
      | x :: xs => (String.mk [c] ++ x) :: xs

/-- Model of Python `s.split("\n")`. -/
def splitNl (s : String) : List String :=
  splitNlChars s.data

/-- Join a nonempty list of parts with `"\n"` (used to describe arbitrary
content with embedded line breaks). -/
def joinNl : List String → String
  | [] => ""
  | [p] => p
  | p :: ps => p ++ "\n" ++ joinNl ps

/-- The newline written by `line_writer` (source line 302). -/
def crlf : String := "\r\n"

/-- The declaration line emitted by `to_strings` on priming (line 324). -/
def xmlDecl : String := "<?xml version=\"1.0\" encoding=\"utf-8\"?>"

/-! ## Pipeline stages -/

/-- `filter_chars` (source lines 435-465).  State: `content` (`None` unless
an element is open with no child started) and `has_content` (set by any
`chars` received while accumulating).  `chars` items are never forwarded
directly; on `end_elem` the accumulated content is classified and flushed
as a single `chars` or a `noop` before the `end_elem`.  The source also
initialises a `last_action` variable that it never reads; it is omitted. -/
def filter_chars (content : Option String) (hasContent : Bool) :
    List Event → List Event
  | [] => []
  | .chars s :: evs =>
    match content with
    | some c => filter_chars (some (c ++ s)) true evs
    | none => filter_chars none hasContent evs
  | .startElem n a :: evs =>
    .startElem n a :: filter_chars (some "") false evs
  | .endElem n :: evs =>
    (match content, hasContent with
     | some c, true =>
       if strContainsNl c && pyStripEmpty c then [Event.noop]
       else [Event.chars c]
     | _, _ => []) ++ (.endElem n :: filter_chars none false evs)
  | .noop :: evs => .noop :: filter_chars content hasContent evs

/-- Suspension point of the `to_lines` coroutine (source lines 367-432).
`top` is the main loop awaiting one item; `afterStart n a` is
`to_lines_post_start_elem` peeking the item after a `start_elem`;
`inChars n a c` is `to_lines_elem_chars` accumulating content `c`. -/
inductive ToLinesState where
  | top
  | afterStart (name : String) (attrs : Attrs)
  | inChars (name : String) (attrs : Attrs) (content : String)
deriving DecidableEq, Repr

/-- One step of `to_lines`: lines emitted and the next suspension point.
The source's lookahead-with-replay (`return action, params` back into the
main loop) is inlined as the dispatch on the replayed item; the `assert`
statements become errors. -/
def to_lines_step : ToLinesState → Event → Except String (List Line × ToLinesState)
  | .top, .startElem n a => .ok ([], .afterStart n a)
  | .top, .endElem n => .ok ([.endLine n], .top)
  | .top, .chars _ => .ok ([], .top)
  | .top, .noop => .ok ([], .top)
  | .afterStart n a, .endElem n2 =>
    if n2 = n then .ok ([.emptyLine n a], .top) else .error "AssertionError"
  | .afterStart n a, .chars s => .ok ([], .inChars n a s)
  | .afterStart n a, .startElem n2 a2 => .ok ([.startLine n a], .afterStart n2 a2)
  | .afterStart n a, .noop => .ok ([.startLine n a], .top)
  | .inChars n a c, .chars s => .ok ([], .inChars n a (c ++ s))
  | .inChars n a c, .endElem n2 =>
    if n2 = n then .ok ([.contentLine n a c], .top) else .error "AssertionError"
  | .inChars n a c, .startElem n2 a2 =>
    if pyStripEmpty c then .ok ([.startLine n a], .afterStart n2 a2)
    else .error "AssertionError"
  | .inChars n a c, .noop =>
    if pyStripEmpty c then .ok ([.startLine n a], .top)
    else .error "AssertionError"

/-- `to_lines` run over an item list: emitted lines and final suspension
point (a coroutine left suspended mid-element has emitted nothing for it). -/
def to_lines (st : ToLinesState) : List Event → Except String (List Line × ToLinesState)
  | [] => .ok ([], st)
  | e :: evs =>
    match to_lines_step st e with
    | .error m => .error m
    | .ok (ls, st2) =>
      match to_lines st2 evs with
      | .error m => .error m
      | .ok (ls2, stf) => .ok (ls ++ ls2, stf)

/-- `compute_indent` (source lines 347-364): decrement before an
`end_elem_line`, increment after a `start_elem_line`. -/
def compute_indent (indent : Int) : List Line → List (Int × Line)
  | [] => []
  | .endLine n :: rest => (indent - 1, .endLine n) :: compute_indent (indent - 1) rest
  | .startLine n a :: rest => (indent, .startLine n a) :: compute_indent (indent + 1) rest
  | .emptyLine n a :: rest => (indent, .emptyLine n a) :: compute_indent indent rest
  | .contentLine n a c :: rest =>
    (indent, .contentLine n a c) :: compute_indent indent rest

/-- Strings produced by `to_strings` for a single annotated line item
(source lines 325-344); a `content_elem_line` is split at embedded `"\n"`
after the indent has been prepended to the whole element string. -/
def toStringsLine (d : Int) : Line → List String
  | .startLine n a => [xml_indent d ++ xml_tag_open_elem n a]
  | .emptyLine n a => [xml_indent d ++ xml_tag_empty_elem n a]
  | .contentLine n a c =>
    splitNl (xml_indent d ++ xml_tag_open_elem n a ++ c ++ xml_tag_close_elem n)
  | .endLine n => [xml_indent d ++ xml_tag_close_elem n]

/-- `to_strings` (source lines 317-344) applied to every annotated line;
the XML declaration sent on priming is added by `renderLines` below. -/
def to_strings : List (Int × Line) → List String
  | [] => []
  | (d, l) :: rest => toStringsLine d l ++ to_strings rest

/-- Buffered text of `genoutput` (source lines 228-234): declaration first,
lines joined by CRLF by `line_writer`, no trailing newline. -/
def renderLines (ls : List Line) : String :=
  String.intercalate crlf (xmlDecl :: to_strings (compute_indent 0 ls))

/-- Output half of the pipeline from already-normalized items. -/
def renderEvents (evs : List Event) : Except String String :=
  match to_lines .top evs with
  | .error m => .error m
  | .ok (ls, _) => .ok (renderLines ls)

/-- The no-filter rewrite pipeline `geninput(genoutput(out))` of
`filter_file` with `genfilter is None` (source lines 207-212). -/
def renderOutput (evs : List Event) : Except String String :=
  renderEvents (filter_chars none false evs)

/-! ## Stream-editing primitives -/

/-- Result of a subcoroutine run: items forwarded to `target`, and either
`some` of (return value, unconsumed input) or `none` if the input ended
while the subcoroutine was still suspended at a `yield`. -/
abbrev SubRun (ρ : Type) := Except String (List Event × Option (ρ × List Event))

/-- Prepend forwarded items to a subcoroutine result. -/
def subPre {ρ : Type} (pre : List Event) : SubRun ρ → SubRun ρ
  | .ok (out, r) => .ok (pre ++ out, r)
  | .error m => .error m

/-- `skip_to` (source lines 109-144).  Forwards items until, at the entry
nesting level (`element_stack` empty), a `start_elem` passes the `name` and
`attr_test` criteria — returned as `(True, item)` without being forwarded —
or the enclosing `end_elem` arrives — returned as `(False, item)`, also
unforwarded.  If both criteria are `none` nothing ever matches.  The stack
pop `assert` becomes an error. -/
def skip_to (name : Option String) (attr_test : Option (Attrs → Bool))
    (element_stack : List String) : List Event → SubRun (Bool × Event)
  | [] => .ok ([], none)
  | .startElem n a :: evs =>
    if (!(name.isNone && attr_test.isNone)) && element_stack.isEmpty
        && (match name with | none => true | some nm => n = nm)
        && (match attr_test with | none => true | some f => f a) then
      .ok ([], some ((true, .startElem n a), evs))
    else
      subPre [.startElem n a] (skip_to name attr_test (n :: element_stack) evs)
  | .endElem n :: evs =>
    match element_stack with
    | [] => .ok ([], some ((false, .endElem n), evs))
    | top :: stk =>
      if top = n then subPre [.endElem n] (skip_to name attr_test stk evs)
      else .error "AssertionError"
  | e :: evs => subPre [e] (skip_to name attr_test element_stack evs)

/-- `send_element` (source lines 176-182): a fresh start/content/end run. -/
def send_element (name : String) (attrs : Attrs) (content : Option String) :
    List Event :=
  [Event.startElem name attrs]
    ++ (match content with | some c => [Event.chars c] | none => [])
    ++ [Event.endElem name]

/-- `set_content` (source lines 147-173).  Scans for a sibling named `name`;
if found, consumes its single `chars` body item (`assert action == "chars"`
— anything else, a `noop` included, is an error), drops its old events,
emits a replacement with the same attributes and the new content, then
scans on and errors on a duplicate; otherwise appends a fresh element at
the end of the enclosing element.  Returns the enclosing `end_elem` item
unforwarded. -/
def set_content (name content : String) (input : List Event) : SubRun Event :=
  match skip_to (some name) none [] input with
  | .error m => .error m
  | .ok (out1, none) => .ok (out1, none)
  | .ok (out1, some ((found, ev1), rest1)) =>
    if found then
      match rest1 with
      | [] => .ok (out1, none)
      | ev :: rest2 =>
        match ev with
        | .chars _ =>
          match skip_to none none [] rest2 with
          | .error m => .error m
          | .ok (out2, none) => .ok (out1 ++ out2, none)
          | .ok (out2, some (_, rest3)) =>
            match skip_to (some name) none [] rest3 with
            | .error m => .error m
            | .ok (out4, none) =>
              .ok (out1 ++ out2 ++ send_element name ev1.attrs (some content)
                    ++ out4, none)
            | .ok (out4, some ((found2, ev3), rest4)) =>
              if found2 then .error ("Duplicate element: " ++ name)
              else
                .ok (out1 ++ out2 ++ send_element name ev1.attrs (some content)
                      ++ out4, some (ev3, rest4))
        | _ => .error "AssertionError"
    else
      .ok (out1 ++ send_element name [] (some content), some (ev1, rest1))

/-- Modelled from the spec: the caller-supplied filter of the rewrite driver
for `upsert-child-content` (spec sections 4.3 and 6; the source file ships
`set_content` and documents this filter shape in its usage examples, but the
filter itself is user code).  It forwards the first item (the enclosing
element's `start_elem`), runs `set_content` under it, then forwards the
returned enclosing `end_elem` and everything after it. -/
def upsertChildContent (name content : String) : List Event → Except String (List Event)
  | [] => .ok []
  | e :: evs =>
    match set_content name content evs with
    | .error m => .error m
    | .ok (out, none) => .ok (e :: out)
    | .ok (out, some (retEv, rest)) => .ok (e :: (out ++ retEv :: rest))

/-- The full rewrite pipeline with the upsert filter between the normalizer
and the line reconstructor. -/
def transformOutput (name content : String) (evs : List Event) :
    Except String String :=
  match upsertChildContent name content (filter_chars none false evs) with
  | .error m => .error m
  | .ok fevs => renderEvents fevs

/-! ## The rewrite driver and its failure behaviour -/

/-- What the Expat tokenizer did with the input file: either it delivered
every item of a well-formed document, or it raised `ExpatError` after
delivering a prefix of items. -/
inductive ParseOutcome where
  | wellFormed (evs : List Event)
  | malformed (delivered : List Event)
deriving DecidableEq, Repr

/-- Effect of `filter_file` on the destination file. -/
inductive WriteOutcome where
  | written (text : String)
  | untouched
deriving DecidableEq, Repr

/-- `filter_file` (source lines 199-216) with `process_file` (237-242),
abstracted over the composed pipeline `p` (normalizer, caller filter,
output stages) as a function from delivered items to the buffered text or a
raised exception.  In the well-formed case the buffer is written if no
stage raised.  In the malformed case `process_file` catches `ExpatError`,
prints to stderr and returns, so `filter_file` still writes the buffered
partial output; only an exception raised by a pipeline stage (which is not
an `ExpatError` and is not caught) aborts before the write. -/
def filter_file (p : List Event → Except String String) :
    ParseOutcome → WriteOutcome
  | .wellFormed evs =>
    match p evs with
    | .ok text => .written text
    | .error _ => .untouched
  | .malformed delivered =>
    match p delivered with
    | .ok text => .written text
    | .error _ => .untouched

/-! ## Canonical documents

A document tree describes the class of inputs the spec's round-trip
property ranges over: pure element content, inline text content,
whitespace-only open/close bodies, and self-closing empty elements, in the
two-space-indent/CRLF layout Visual Studio writes. -/

mutual
inductive XTree where
  | node (name : String) (attrs : Attrs) (body : XBody)
deriving DecidableEq, Repr

inductive XBody where
  | empty : XBody
  | ws : XBody
  | text (s : String) : XBody
  | children (cs : XForest) : XBody
deriving DecidableEq, Repr

inductive XForest where
  | nil : XForest
  | cons (t : XTree) (ts : XForest) : XForest
deriving DecidableEq, Repr
end

/-- Root tag name of a tree. -/
def XTree.name : XTree → String
  | .node n _ _ => n

/-- Root attributes of a tree. -/
def XTree.attrs : XTree → Attrs
  | .node _ a _ => a

/-- Body of a tree's root element. -/
def XTree.body : XTree → XBody
  | .node _ _ b => b

/-- Forest concatenation. -/
def XForest.app : XForest → XForest → XForest
  | .nil, ys => ys
  | .cons t ts, ys => .cons t (ts.app ys)

/-- True on the empty forest. -/
def XForest.isNil : XForest → Bool
  | .nil => true
  | .cons _ _ => false

/-- No root of the forest is named `nm` (nested occurrences are allowed). -/
def nmFree (nm : String) : XForest → Bool
  | .nil => true
  | .cons t ts => (t.name ≠ nm : Bool) && nmFree nm ts

/-- Valid markup name characters (conservative). -/
def nameOk (n : String) : Bool :=
  n ≠ "" && n.data.all (fun c =>
    c.isAlpha || c.isDigit || c = '_' || c = '-' || c = '.' || c = ':')

/-- Attribute names are valid and pairwise distinct. -/
def attrsOk : Attrs → Bool
  | [] => true
  | (n, _) :: rest => nameOk n && rest.all (fun p => p.1 ≠ n) && attrsOk rest

/-- No character of `s` opens markup, and no `"]]>"` run: required for the
external tokenizer to hand the text back verbatim as character data.  Bare
`'\r'` is excluded because the tokenizer normalizes line endings to `'\n'`
(the canonical text writes breaks inside content as CRLF). -/
def charsOkList : List Char → Bool
  | [] => true
  | ']' :: ']' :: '>' :: _ => false
  | c :: rest => (c ≠ '<' && c ≠ '&' && c ≠ '\r') && charsOkList rest

/-- Inline text content representable in canonical layout: nonempty (an
empty body is written self-closing), parseable back verbatim, and not
whitespace containing a line break (that shape is the `ws` body). -/
def contentOk (s : String) : Bool :=
  s ≠ "" && charsOkList s.data && !(strContainsNl s && pyStripEmpty s)

mutual
/-- The tree lies in the canonical two-space/CRLF layout class. -/
def canonicalT : XTree → Bool
  | .node n a b => nameOk n && attrsOk a && canonicalB b

def canonicalB : XBody → Bool
  | .empty => true
  | .ws => true
  | .text s => contentOk s
  | .children cs => !cs.isNil && canonicalF cs

def canonicalF : XForest → Bool
  | .nil => true
  | .cons t ts => canonicalT t && canonicalF ts
end

mutual
/-- Modelled from the spec: the items the Tokenizer Adapter (spec section
4.1, the external Expat wrapper of source lines 468-505) delivers for the
canonical text of a tree at depth `d`.  One `start_elem` per open tag with
attributes in order, one `chars` per contiguous character-data run with
line endings normalized to `'\n'` (so the CRLF+indent between tag lines
arrives as `"\n" ++ indent`), one `end_elem` per close tag, a self-closing
tag delivered as start immediately followed by end, and nothing for the
declaration line or the whitespace around the root. -/
def evsT (t : XTree) (d : Int) : List Event :=
  match t with
  | .node n a b =>
    .startElem n a ::
      (match b with
       | .empty => [.endElem n]
       | .ws => [.chars ("\n" ++ xml_indent d), .endElem n]
       | .text s => [.chars s, .endElem n]
       | .children cs =>
         evsChildren cs (d + 1) ++ [.chars ("\n" ++ xml_indent d), .endElem n])

/-- Items for a run of children: each child's subtree is preceded by the
line break and indentation that put it on its own line. -/
def evsChildren (cs : XForest) (d : Int) : List Event :=
  match cs with
  | .nil => []
  | .cons t ts => .chars ("\n" ++ xml_indent d) :: evsT t d ++ evsChildren ts d
end

mutual
/-- The normalized item stream for a tree: what `filter_chars` hands to the
downstream stages (layout whitespace gone, a `noop` marking a
whitespace-with-line-break body, text bodies as one consolidated `chars`). -/
def nevsT (t : XTree) : List Event :=
  match t with
  | .node n a b =>
    .startElem n a ::
      (match b with
       | .empty => [.endElem n]
       | .ws => [.noop, .endElem n]
       | .text s => [.chars s, .endElem n]
       | .children cs => nevsF cs ++ [.endElem n])

def nevsF (cs : XForest) : List Event :=
  match cs with
  | .nil => []
  | .cons t ts => nevsT t ++ nevsF ts
end

mutual
/-- The line items `to_lines` produces for a normalized tree. -/
def tlinesT (t : XTree) : List Line :=
  match t with
  | .node n a b =>
    match b with
    | .empty => [.emptyLine n a]
    | .ws => [.startLine n a, .endLine n]
    | .text s => [.contentLine n a s]
    | .children cs => .startLine n a :: tlinesF cs ++ [.endLine n]

def tlinesF (cs : XForest) : List Line :=
  match cs with
  | .nil => []
  | .cons t ts => tlinesT t ++ tlinesF ts
end

mutual
/-- The literal text lines of a tree in canonical layout at depth `d` —
both the shape of conforming input and what the renderer emits. -/
def textLinesT (d : Int) (t : XTree) : List String :=
  match t with
  | .node n a b =>
    match b with
    | .empty => [xml_indent d ++ xml_tag_empty_elem n a]
    | .ws => [xml_indent d ++ xml_tag_open_elem n a, xml_indent d ++ xml_tag_close_elem n]
    | .text s =>
      splitNl (xml_indent d ++ xml_tag_open_elem n a ++ s ++ xml_tag_close_elem n)
    | .children cs =>
      (xml_indent d ++ xml_tag_open_elem n a) ::
        textLinesF (d + 1) cs ++ [xml_indent d ++ xml_tag_close_elem n]

def textLinesF (d : Int) (cs : XForest) : List String :=
  match cs with
  | .nil => []
  | .cons t ts => textLinesT d t ++ textLinesF d ts
end

/-- The whole canonical document text: declaration line, then the root
element's lines, CRLF-joined, no trailing newline. -/
def docText (t : XTree) : String :=
  String.intercalate crlf (xmlDecl :: textLinesT 0 t)

/-! ## String facts -/

theorem strRepeat_space_all (n : Nat) : (strRepeat n "  ").data.all pyIsSpace = true := by
  induction n with
  | zero => rfl
  | succ k ih => simp [strRepeat, String.data_append, List.all_append, ih]; decide

theorem ws_strip (d : Int) : pyStripEmpty ("\n" ++ xml_indent d) = true := by
  simp [pyStripEmpty, String.data_append, xml_indent, List.all_append, strRepeat_space_all]
  decide

theorem ws_nl (d : Int) : strContainsNl ("\n" ++ xml_indent d) = true := by
  simp [strContainsNl, String.data_append]

/-! ## Canonicality extraction -/

theorem canonicalF_cons {t : XTree} {ts : XForest}
    (h : canonicalF (.cons t ts) = true) :
    canonicalT t = true ∧ canonicalF ts = true := by
  rw [canonicalF, Bool.and_eq_true] at h
  exact h

theorem canonicalT_parts {n : String} {a : Attrs} {b : XBody}
    (h : canonicalT (.node n a b) = true) :
    nameOk n = true ∧ attrsOk a = true ∧ canonicalB b = true := by
  rw [canonicalT, Bool.and_eq_true, Bool.and_eq_true] at h
  exact ⟨h.1.1, h.1.2, h.2⟩

theorem contentOk_not_wsnl {s : String} (h : contentOk s = true) :
    (strContainsNl s && pyStripEmpty s) = false := by
  rw [contentOk, Bool.and_eq_true, Bool.and_eq_true] at h
  have := h.2
  rwa [Bool.not_eq_true'] at this

/-! ## The normalizer on canonical documents -/

mutual
/-- `filter_chars`, from any entry state, turns the tokenizer items of a
canonical tree into its normalized items and continues on the rest. -/
theorem fc_run_tree (t : XTree) (hc : canonicalT t = true) (d : Int)
    (c : Option String) (hb : Bool) (rest : List Event) :
    filter_chars c hb (evsT t d ++ rest) = nevsT t ++ filter_chars none false rest :=
  match t with
  | .node n a .empty => by
    simp [evsT, nevsT, filter_chars]
  | .node n a .ws => by
    simp [evsT, nevsT, filter_chars, ws_nl, ws_strip]
  | .node n a (.text s) => by
    have hok := (canonicalT_parts hc).2.2
    rw [canonicalB] at hok
    simp [evsT, nevsT, filter_chars, contentOk_not_wsnl hok]
  | .node n a (.children .nil) => by
    have hcb := (canonicalT_parts hc).2.2
    simp [canonicalB, XForest.isNil] at hcb
  | .node n a (.children (.cons t0 ts)) => by
    have hcb := (canonicalT_parts hc).2.2
    rw [canonicalB, Bool.and_eq_true] at hcb
    obtain ⟨h0, hts⟩ := canonicalF_cons hcb.2
    simp only [evsT, evsChildren, nevsT, List.cons_append, List.append_assoc,
      List.nil_append, List.append_eq, filter_chars]
    rw [fc_run_chain t0 ts h0 hts]
    simp [nevsF]
termination_by sizeOf t
decreasing_by all_goals (simp; omega)

/-- `filter_chars` over a child's subtree, its following siblings, the
closing layout whitespace and the parent's `end_elem`: each child
normalizes, sibling whitespace is dropped, and no flush happens at the
parent end. -/
theorem fc_run_chain (t0 : XTree) (ts : XForest) (h0 : canonicalT t0 = true)
    (hts : canonicalF ts = true) (d : Int) (c : Option String) (hb : Bool)
    (w n : String) (rest : List Event) :
    filter_chars c hb
        (evsT t0 d ++ (evsChildren ts d ++ (.chars w :: .endElem n :: rest)))
      = nevsT t0 ++ (nevsF ts ++ (.endElem n :: filter_chars none false rest)) :=
  match ts with
  | .nil => by
    rw [fc_run_tree t0 h0]
    simp [evsChildren, nevsF, filter_chars]
  | .cons u us => by
    rw [fc_run_tree t0 h0]
    obtain ⟨hu, hus⟩ := canonicalF_cons hts
    simp only [evsChildren, nevsF, List.cons_append, List.append_assoc,
      List.nil_append, List.append_eq, filter_chars]
    rw [fc_run_chain u us hu hus]
termination_by sizeOf t0 + sizeOf ts + 1
decreasing_by all_goals (simp; omega)
end

/-! ## The line reconstructor on normalized documents -/

/-- Prepend already-emitted lines to a `to_lines` result. -/
def exPre (pre : List Line) : Except String (List Line × ToLinesState) →
    Except String (List Line × ToLinesState)
  | .ok (ls, st) => .ok (pre ++ ls, st)
  | .error m => .error m

theorem exPre_exPre (a b : List Line) (x : Except String (List Line × ToLinesState)) :
    exPre a (exPre b x) = exPre (a ++ b) x := by
  rcases x with m | ⟨ls, st⟩ <;> simp [exPre]

/-- Normalized items of a tree after its `start_elem`. -/
def nevsTail (t : XTree) : List Event :=
  match t with
  | .node n _ b =>
    match b with
    | .empty => [.endElem n]
    | .ws => [.noop, .endElem n]
    | .text s => [.chars s, .endElem n]
    | .children cs => nevsF cs ++ [.endElem n]

theorem nevsT_eq (t : XTree) :
    nevsT t = .startElem t.name t.attrs :: nevsTail t := by
  obtain ⟨n, a, b⟩ := t
  cases b <;> rfl

/-- Entering a tree's items with a pending `start_elem` decision: the
pending element becomes a `start_elem_line` and the replayed `start_elem`
leaves the machine exactly as if it had arrived at the top state. -/
theorem tl_shift (n : String) (a : Attrs) (t : XTree) (rest : List Event) :
    to_lines (.afterStart n a) (nevsT t ++ rest)
      = exPre [.startLine n a] (to_lines .top (nevsT t ++ rest)) := by
  rw [nevsT_eq, List.cons_append]
  rcases hR : to_lines (.afterStart t.name t.attrs) (nevsTail t ++ rest) with m | ⟨ls, st⟩ <;>
    simp [to_lines, to_lines_step, exPre, hR]

mutual
/-- `to_lines` turns the normalized items of a canonical tree into its line
items and continues at the top state. -/
theorem tl_run_tree (t : XTree) (hc : canonicalT t = true) (rest : List Event) :
    to_lines .top (nevsT t ++ rest) = exPre (tlinesT t) (to_lines .top rest) :=
  match t with
  | .node n a .empty => by
    rcases hR : to_lines ToLinesState.top rest with m | ⟨ls, st⟩ <;>
      simp [nevsT, tlinesT, to_lines, to_lines_step, exPre, hR]
  | .node n a .ws => by
    rcases hR : to_lines ToLinesState.top rest with m | ⟨ls, st⟩ <;>
      simp [nevsT, tlinesT, to_lines, to_lines_step, exPre, hR]
  | .node n a (.text s) => by
    rcases hR : to_lines ToLinesState.top rest with m | ⟨ls, st⟩ <;>
      simp [nevsT, tlinesT, to_lines, to_lines_step, exPre, hR]
  | .node n a (.children .nil) => by
    have hcb := (canonicalT_parts hc).2.2
    simp [canonicalB, XForest.isNil] at hcb
  | .node n a (.children (.cons t0 ts)) => by
    have hcb := (canonicalT_parts hc).2.2
    rw [canonicalB, Bool.and_eq_true] at hcb
    obtain ⟨h0, hts⟩ := canonicalF_cons hcb.2
    have step1 : to_lines .top (nevsT (.node n a (.children (.cons t0 ts))) ++ rest)
        = to_lines (.afterStart n a) (nevsT t0 ++ (nevsF ts ++ (.endElem n :: rest))) := by
      simp only [nevsT, nevsF, List.cons_append, List.append_assoc, List.nil_append,
        List.append_eq]
      rw [nevsT_eq t0, List.cons_append]
      rcases hR : to_lines (.afterStart t0.name t0.attrs)
          (nevsTail t0 ++ (nevsF ts ++ (Event.endElem n :: rest))) with m | ⟨ls, st⟩ <;>
        simp [to_lines, to_lines_step, hR]
    rw [step1, tl_shift, tl_run_tree t0 h0, tl_run_forest ts hts]
    have stepEnd : to_lines ToLinesState.top (.endElem n :: rest)
        = exPre [.endLine n] (to_lines .top rest) := by
      rcases hR : to_lines ToLinesState.top rest with m | ⟨ls, st⟩ <;>
        simp [to_lines, to_lines_step, exPre, hR]
    rw [stepEnd, exPre_exPre, exPre_exPre, exPre_exPre]
    simp [tlinesT, tlinesF]
termination_by sizeOf t
decreasing_by all_goals (simp; try omega)

/-- `to_lines` over a forest of normalized sibling subtrees. -/
theorem tl_run_forest (cs : XForest) (hc : canonicalF cs = true) (rest : List Event) :
    to_lines .top (nevsF cs ++ rest) = exPre (tlinesF cs) (to_lines .top rest) :=
  match cs with
  | .nil => by
    rcases hR : to_lines ToLinesState.top rest with m | ⟨ls, st⟩ <;>
      simp [nevsF, tlinesF, exPre, hR]
  | .cons t ts => by
    obtain ⟨ht, hts⟩ := canonicalF_cons hc
    rw [nevsF, List.append_assoc, tl_run_tree t ht, tl_run_forest ts hts,
      exPre_exPre]
    simp [tlinesF]
termination_by sizeOf cs
decreasing_by all_goals (simp; try omega)
end

/-! ## Indent annotation and rendering of document line items -/

mutual
/-- `compute_indent` and `to_strings` turn a tree's line items at depth `d`
into its canonical text lines, leaving the depth unchanged for what
follows. -/
theorem ci_run_tree (t : XTree) (d : Int) (rest : List Line) :
    to_strings (compute_indent d (tlinesT t ++ rest))
      = textLinesT d t ++ to_strings (compute_indent d rest) :=
  match t with
  | .node n a .empty => by
    simp [tlinesT, textLinesT, compute_indent, to_strings, toStringsLine]
  | .node n a .ws => by
    simp [tlinesT, textLinesT, compute_indent, to_strings, toStringsLine]
  | .node n a (.text s) => by
    simp [tlinesT, textLinesT, compute_indent, to_strings, toStringsLine]
  | .node n a (.children cs) => by
    have : tlinesT (.node n a (.children cs)) ++ rest
        = .startLine n a :: (tlinesF cs ++ (.endLine n :: rest)) := by
      simp [tlinesT]
    rw [this, compute_indent, to_strings, ci_run_forest cs (d + 1)]
    simp [compute_indent, to_strings, toStringsLine, textLinesT]
termination_by sizeOf t
decreasing_by all_goals (simp; try omega)

/-- Forest version of `ci_run_tree`. -/
theorem ci_run_forest (cs : XForest) (d : Int) (rest : List Line) :
    to_strings (compute_indent d (tlinesF cs ++ rest))
      = textLinesF d cs ++ to_strings (compute_indent d rest) :=
  match cs with
  | .nil => by simp [tlinesF, textLinesF]
  | .cons t ts => by
    rw [tlinesF, List.append_assoc, ci_run_tree t d, ci_run_forest ts d]
    simp [textLinesF]
termination_by sizeOf cs
decreasing_by all_goals (simp; try omega)
end

/-! ## Round trip -/

/-- The normalizer output on a canonical document's tokenizer items. -/
theorem fc_canonical (t : XTree) (hc : canonicalT t = true) :
    filter_chars none false (evsT t 0) = nevsT t := by
  have := fc_run_tree t hc 0 none false []
  simpa [filter_chars] using this

/-- The output half of the pipeline regenerates the canonical text from
normalized document items. -/
theorem render_canonical (t : XTree) (hc : canonicalT t = true) :
    renderEvents (nevsT t) = .ok (docText t) := by
  have h1 := tl_run_tree t hc []
  rw [List.append_nil] at h1
  have h2 := ci_run_tree t 0 []
  rw [List.append_nil] at h2
  rw [renderEvents, h1]
  simp only [to_lines, exPre]
  rw [renderLines, List.append_nil, h2]
  simp [docText, compute_indent, to_strings]

/-- C1.  Round-trip identity: the full pipeline with a no-op filter
reproduces the canonical text byte-identically. -/
theorem round_trip_identity (t : XTree) (hc : canonicalT t = true) :
    renderOutput (evsT t 0) = .ok (docText t) := by
  rw [renderOutput, fc_canonical t hc, render_canonical t hc]

/-- A sample canonical document for the round-trip witness. -/
def rtSample : XTree :=
  .node "Project" [("ToolsVersion", "4.0")]
    (.children
      (.cons (.node "ItemGroup" [] .empty)
        (.cons (.node "Config" [("Condition", "x&y")] (.text "Debug"))
          (.cons (.node "Wrap" [] .ws) .nil))))

theorem round_trip_identity_witness :
    canonicalT rtSample = true ∧
      renderOutput (evsT rtSample 0) = .ok (docText rtSample) :=
  ⟨by decide, round_trip_identity rtSample (by decide)⟩

/-! ## Sibling-scoped scanning -/

theorem subPre_subPre {ρ : Type} (a b : List Event) (x : SubRun ρ) :
    subPre a (subPre b x) = subPre (a ++ b) x := by
  rcases x with m | ⟨out, r⟩ <;> simp [subPre]

theorem skip_to_start_no_match (nm n : String) (a : Attrs) (stk : List String)
    (h : stk = [] → n ≠ nm) (evs : List Event) :
    skip_to (some nm) none stk (.startElem n a :: evs)
      = subPre [.startElem n a] (skip_to (some nm) none (n :: stk) evs) := by
  cases stk with
  | nil => simp [skip_to, h rfl]
  | cons x xs => simp [skip_to]

theorem skip_to_start_match (nm : String) (a : Attrs) (evs : List Event) :
    skip_to (some nm) none [] (.startElem nm a :: evs)
      = .ok ([], some ((true, .startElem nm a), evs)) := by
  simp [skip_to]

theorem skip_to_end_pop (name : Option String) (tst : Option (Attrs → Bool))
    (n : String) (stk : List String) (evs : List Event) :
    skip_to name tst (n :: stk) (.endElem n :: evs)
      = subPre [.endElem n] (skip_to name tst stk evs) := by
  simp [skip_to]

theorem skip_to_end_ret (name : Option String) (tst : Option (Attrs → Bool))
    (n : String) (evs : List Event) :
    skip_to name tst [] (.endElem n :: evs)
      = .ok ([], some ((false, .endElem n), evs)) := by
  simp [skip_to]

theorem skip_to_chars (name : Option String) (tst : Option (Attrs → Bool))
    (s : String) (stk : List String) (evs : List Event) :
    skip_to name tst stk (.chars s :: evs)
      = subPre [.chars s] (skip_to name tst stk evs) := by
  simp [skip_to]

theorem skip_to_noop (name : Option String) (tst : Option (Attrs → Bool))
    (stk : List String) (evs : List Event) :
    skip_to name tst stk (.noop :: evs)
      = subPre [.noop] (skip_to name tst stk evs) := by
  simp [skip_to]

mutual
/-- `skip_to` with a name criterion forwards a non-matching subtree
verbatim and restores its stack: elements of that name nested inside it
arrive with a nonempty stack and are never tested. -/
theorem sk_fwd_tree (nm : String) (t : XTree) (stk : List String)
    (h : stk = [] → t.name ≠ nm) (rest : List Event) :
    skip_to (some nm) none stk (nevsT t ++ rest)
      = subPre (nevsT t) (skip_to (some nm) none stk rest) :=
  match t with
  | .node n a b => by
    have hn : stk = [] → n ≠ nm := by
      intro hs
      have := h hs
      simpa [XTree.name] using this
    cases b with
    | empty =>
      rw [nevsT_eq]
      simp only [XTree.name, XTree.attrs, nevsTail, List.cons_append]
      rw [skip_to_start_no_match nm n a stk hn, skip_to_end_pop,
        subPre_subPre]
      simp
    | ws =>
      rw [nevsT_eq]
      simp only [XTree.name, XTree.attrs, nevsTail, List.cons_append]
      rw [skip_to_start_no_match nm n a stk hn, skip_to_noop, skip_to_end_pop,
        subPre_subPre, subPre_subPre]
      simp
    | text s =>
      rw [nevsT_eq]
      simp only [XTree.name, XTree.attrs, nevsTail, List.cons_append]
      rw [skip_to_start_no_match nm n a stk hn, skip_to_chars, skip_to_end_pop,
        subPre_subPre, subPre_subPre]
      simp
    | children cs =>
      rw [nevsT_eq]
      simp only [XTree.name, XTree.attrs, nevsTail, List.cons_append,
        List.append_assoc]
      rw [skip_to_start_no_match nm n a stk hn,
        sk_fwd_forest nm cs (n :: stk) (by intro hx; cases hx) _,
        skip_to_end_pop, subPre_subPre, subPre_subPre]
      simp
termination_by sizeOf t
decreasing_by all_goals (simp; try omega)

/-- Forest version of `sk_fwd_tree`. -/
theorem sk_fwd_forest (nm : String) (cs : XForest) (stk : List String)
    (h : stk = [] → nmFree nm cs = true) (rest : List Event) :
    skip_to (some nm) none stk (nevsF cs ++ rest)
      = subPre (nevsF cs) (skip_to (some nm) none stk rest) :=
  match cs with
  | .nil => by
    rcases hR : skip_to (some nm) none stk rest with m | ⟨out, r⟩ <;>
      simp [nevsF, subPre, hR]
  | .cons t ts => by
    have ht : stk = [] → t.name ≠ nm := by
      intro hs
      have := h hs
      rw [nmFree, Bool.and_eq_true] at this
      simpa using this.1
    have hts : stk = [] → nmFree nm ts = true := by
      intro hs
      have := h hs
      rw [nmFree, Bool.and_eq_true] at this
      exact this.2
    rw [nevsF, List.append_assoc, sk_fwd_tree nm t stk ht,
      sk_fwd_forest nm ts stk hts, subPre_subPre]
termination_by sizeOf cs
decreasing_by all_goals (simp; try omega)
end

/-- C3.  Sibling-scoped scanning: over any run of non-matching sibling
subtrees (which may contain the name nested arbitrarily), `skip_to` with
that name forwards every subtree verbatim; a sibling-level `start_elem` of
the name is returned as a match without being forwarded, and the enclosing
`end_elem` is returned as a non-match without being forwarded. -/
theorem sibling_scoped_scanning :
    (∀ (nm : String) (F : XForest) (b : XTree) (rest : List Event),
        nmFree nm F = true → b.name = nm →
        skip_to (some nm) none [] (nevsF F ++ (nevsT b ++ rest))
          = .ok (nevsF F, some ((true, .startElem nm b.attrs), nevsTail b ++ rest)))
    ∧ (∀ (nm : String) (F : XForest) (p : String) (rest : List Event),
        nmFree nm F = true →
        skip_to (some nm) none [] (nevsF F ++ (.endElem p :: rest))
          = .ok (nevsF F, some ((false, .endElem p), rest))) := by
  constructor
  · intro nm F b rest hF hb
    rw [sk_fwd_forest nm F [] (fun _ => hF), nevsT_eq, List.cons_append, hb,
      skip_to_start_match]
    simp [subPre]
  · intro nm F p rest hF
    rw [sk_fwd_forest nm F [] (fun _ => hF), skip_to_end_ret]
    simp [subPre]

/-- The spec's example sibling: a `Y` with an `X` nested inside it. -/
def ySibling : XForest :=
  .cons (.node "Y" [] (.children (.cons (.node "X" [] .empty) .nil))) .nil

theorem sibling_scoped_scanning_witness :
    (nmFree "X" ySibling = true ∧
      skip_to (some "X") none []
          (nevsF ySibling ++ (nevsT (.node "X" [] .empty) ++ [.endElem "Root"]))
        = .ok (nevsF ySibling,
            some ((true, .startElem "X" []),
              nevsTail (.node "X" [] .empty) ++ [.endElem "Root"])))
    ∧ (nmFree "X" ySibling = true ∧
      skip_to (some "X") none [] (nevsF ySibling ++ (.endElem "Root" :: []))
        = .ok (nevsF ySibling, some ((false, .endElem "Root"), []))) :=
  ⟨⟨by decide,
      sibling_scoped_scanning.1 "X" ySibling (.node "X" [] .empty) [.endElem "Root"]
        (by decide) rfl⟩,
    ⟨by decide,
      sibling_scoped_scanning.2 "X" ySibling "Root" [] (by decide)⟩⟩

/-! ## Self-closing reconstruction -/

/-- C8.  Through the full pipeline, an empty body renders as one
self-closing line while a whitespace-with-line-break body renders as an
open/close pair, and the two outputs differ. -/
theorem self_closing_reconstruction :
    renderOutput [.startElem "A" [], .endElem "A"] = .ok (xmlDecl ++ "\r\n<A />")
    ∧ renderOutput [.startElem "A" [], .chars "\n  ", .endElem "A"]
        = .ok (xmlDecl ++ "\r\n<A>\r\n</A>")
    ∧ (xmlDecl ++ "\r\n<A>\r\n</A>" : String) ≠ xmlDecl ++ "\r\n<A />" :=
  ⟨rfl, rfl, by decide⟩

/-! ## Forest append facts -/

theorem nevsF_app (x y : XForest) : nevsF (x.app y) = nevsF x ++ nevsF y :=
  match x with
  | .nil => by simp [XForest.app, nevsF]
  | .cons t ts => by simp [XForest.app, nevsF, nevsF_app ts y]
termination_by sizeOf x
decreasing_by all_goals (simp; try omega)

theorem canonicalF_app (x y : XForest) :
    canonicalF (x.app y) = (canonicalF x && canonicalF y) :=
  match x with
  | .nil => by simp [XForest.app, canonicalF]
  | .cons t ts => by simp [XForest.app, canonicalF, canonicalF_app ts y, Bool.and_assoc]
termination_by sizeOf x
decreasing_by all_goals (simp; try omega)

/-! ## Runs of `set_content` -/

/-- `set_content` when a sibling of the target name, carrying a single
`chars` body, is present: the preceding siblings are forwarded, the found
child is re-emitted with its own attributes and the new content, the
following (duplicate-free) siblings are forwarded, and the enclosing
`end_elem` is returned unforwarded. -/
theorem setContentFoundRun (nm v : String) (a : Attrs) (s : String)
    (F1 F2 : XForest) (encl : String) (rest : List Event)
    (h1 : nmFree nm F1 = true) (h2 : nmFree nm F2 = true) :
    set_content nm v
        (nevsF F1 ++ (.startElem nm a :: .chars s :: .endElem nm ::
          (nevsF F2 ++ (.endElem encl :: rest))))
      = .ok (nevsF F1 ++ (.startElem nm a :: .chars v :: .endElem nm :: nevsF F2),
          some (.endElem encl, rest)) := by
  have hfind : skip_to (some nm) none []
      (nevsF F1 ++ (.startElem nm a :: .chars s :: .endElem nm ::
        (nevsF F2 ++ (.endElem encl :: rest))))
      = .ok (nevsF F1, some ((true, .startElem nm a),
          .chars s :: .endElem nm :: (nevsF F2 ++ (.endElem encl :: rest)))) := by
    rw [sk_fwd_forest nm F1 [] (fun _ => h1), skip_to_start_match]
    simp [subPre]
  have hdup : skip_to (some nm) none [] (nevsF F2 ++ (.endElem encl :: rest))
      = .ok (nevsF F2, some ((false, .endElem encl), rest)) := by
    rw [sk_fwd_forest nm F2 [] (fun _ => h2), skip_to_end_ret]
    simp [subPre]
  rw [set_content, hfind]
  simp only [skip_to_end_ret, hdup, Event.attrs, send_element]
  simp

/-- `set_content` when no sibling of the target name exists: everything up
to the enclosing `end_elem` is forwarded, a fresh element with empty
attributes is appended, and the enclosing `end_elem` is returned. -/
theorem setContentMissingRun (nm v : String) (F : XForest) (encl : String)
    (rest : List Event) (h : nmFree nm F = true) :
    set_content nm v (nevsF F ++ (.endElem encl :: rest))
      = .ok (nevsF F ++ [.startElem nm [], .chars v, .endElem nm],
          some (.endElem encl, rest)) := by
  have hfind : skip_to (some nm) none [] (nevsF F ++ (.endElem encl :: rest))
      = .ok (nevsF F, some ((false, .endElem encl), rest)) := by
    rw [sk_fwd_forest nm F [] (fun _ => h), skip_to_end_ret]
    simp [subPre]
  rw [set_content, hfind]
  simp [send_element]

/-- `set_content` when the target name occurs twice at sibling level (the
first occurrence with a `chars` body): the duplicate scan finds the second
occurrence and the labelled assert fires. -/
theorem setContentDupRun (nm v : String) (a : Attrs) (s : String)
    (F1 F2 : XForest) (b2 : XTree) (tail : List Event)
    (h1 : nmFree nm F1 = true) (h2 : nmFree nm F2 = true)
    (hb2 : b2.name = nm) :
    set_content nm v
        (nevsF F1 ++ (.startElem nm a :: .chars s :: .endElem nm ::
          (nevsF F2 ++ (nevsT b2 ++ tail))))
      = .error ("Duplicate element: " ++ nm) := by
  have hfind : skip_to (some nm) none []
      (nevsF F1 ++ (.startElem nm a :: .chars s :: .endElem nm ::
        (nevsF F2 ++ (nevsT b2 ++ tail))))
      = .ok (nevsF F1, some ((true, .startElem nm a),
          .chars s :: .endElem nm :: (nevsF F2 ++ (nevsT b2 ++ tail)))) := by
    rw [sk_fwd_forest nm F1 [] (fun _ => h1), skip_to_start_match]
    simp [subPre]
  have hdup : skip_to (some nm) none [] (nevsF F2 ++ (nevsT b2 ++ tail))
      = .ok (nevsF F2, some ((true, .startElem nm b2.attrs), nevsTail b2 ++ tail)) := by
    rw [sk_fwd_forest nm F2 [] (fun _ => h2), nevsT_eq, List.cons_append, hb2,
      skip_to_start_match]
    simp [subPre]
  rw [set_content, hfind]
  simp only [skip_to_end_ret, hdup]
  simp

/-- C5 (amended).  When `set_content` finds a sibling of the target name
whose body is exactly one `chars` item, it re-emits the element with its
original attributes and the new content in place of the old; a `NoOp` (or
any other) body item fails the content assertion instead of being
accepted. -/
theorem upsert_replacement_amended (nm v : String) (a : Attrs) (s : String)
    (F1 F2 : XForest) (encl : String) (rest : List Event)
    (h1 : nmFree nm F1 = true) (h2 : nmFree nm F2 = true) :
    set_content nm v
        (nevsF F1 ++ (.startElem nm a :: .chars s :: .endElem nm ::
          (nevsF F2 ++ (.endElem encl :: rest))))
      = .ok (nevsF F1 ++ (.startElem nm a :: .chars v :: .endElem nm :: nevsF F2),
          some (.endElem encl, rest)) :=
  setContentFoundRun nm v a s F1 F2 encl rest h1 h2

theorem upsert_replacement_amended_witness :
    (nmFree "B" (XForest.cons (.node "A" [] .empty) .nil) = true
      ∧ nmFree "B" XForest.nil = true)
    ∧ set_content "B" "new"
        (nevsF (XForest.cons (.node "A" [] .empty) .nil)
          ++ (.startElem "B" [("Keep", "1")] :: .chars "old" :: .endElem "B" ::
            (nevsF XForest.nil ++ (.endElem "Root" :: []))))
      = .ok (nevsF (XForest.cons (.node "A" [] .empty) .nil)
          ++ (.startElem "B" [("Keep", "1")] :: .chars "new" :: .endElem "B" ::
            nevsF XForest.nil),
          some (.endElem "Root", [])) :=
  ⟨⟨by decide, by decide⟩,
    upsert_replacement_amended "B" "new" [("Keep", "1")] "old"
      (XForest.cons (.node "A" [] .empty) .nil) XForest.nil "Root" []
      (by decide) (by decide)⟩

/-- C5 counterexample.  A found child whose normalized body is a `NoOp` is
not accepted as a content-bearing unit: the `assert action == "chars"` of
`set_content` fails, refuting the claim that a `NoOp` body is valid. -/
theorem upsert_replacement_noop_rejected :
    set_content "X" "v" [.startElem "X" [], .noop, .endElem "X", .endElem "Root"]
      = .error "AssertionError" := rfl

/-! ## Duplicate detection at the document level -/

/-- The upsert transform on a document whose root has a duplicated target
child (first occurrence with a text body) raises the duplicate assert. -/
theorem transform_dup_error (root nm v s : String) (ra a1 : Attrs)
    (F1 F2 F3 : XForest) (b2 : XTree)
    (hdoc : canonicalT (.node root ra (.children
        (F1.app (.cons (.node nm a1 (.text s)) (F2.app (.cons b2 F3)))))) = true)
    (h1 : nmFree nm F1 = true) (h2 : nmFree nm F2 = true)
    (hb2 : b2.name = nm) :
    transformOutput nm v (evsT (.node root ra (.children
        (F1.app (.cons (.node nm a1 (.text s)) (F2.app (.cons b2 F3)))))) 0)
      = .error ("Duplicate element: " ++ nm) := by
  rw [transformOutput, fc_canonical _ hdoc]
  have hsh : nevsT (.node root ra (.children
      (F1.app (.cons (.node nm a1 (.text s)) (F2.app (.cons b2 F3))))))
      = .startElem root ra ::
        (nevsF F1 ++ (.startElem nm a1 :: .chars s :: .endElem nm ::
          (nevsF F2 ++ (nevsT b2 ++ (nevsF F3 ++ [.endElem root]))))) := by
    simp [nevsT, nevsF, nevsF_app]
  have hsc := setContentDupRun nm v a1 s F1 F2 b2
    (nevsF F3 ++ [Event.endElem root]) h1 h2 hb2
  rw [hsh, upsertChildContent]
  simp only [hsc]

/-- C6 (amended).  When the root element has two or more direct children of
the target name and the first of them carries a text body, the upsert
transform raises the labelled duplicate assert and the destination file is
not written.  (If the first occurrence has no text body, the earlier
content assertion fires instead — see the counterexample — still writing
nothing.) -/
theorem duplicate_detection_amended (root nm v s : String) (ra a1 : Attrs)
    (F1 F2 F3 : XForest) (b2 : XTree)
    (hdoc : canonicalT (.node root ra (.children
        (F1.app (.cons (.node nm a1 (.text s)) (F2.app (.cons b2 F3)))))) = true)
    (h1 : nmFree nm F1 = true) (h2 : nmFree nm F2 = true)
    (hb2 : b2.name = nm) :
    transformOutput nm v (evsT (.node root ra (.children
        (F1.app (.cons (.node nm a1 (.text s)) (F2.app (.cons b2 F3)))))) 0)
      = .error ("Duplicate element: " ++ nm)
    ∧ filter_file (transformOutput nm v)
        (.wellFormed (evsT (.node root ra (.children
          (F1.app (.cons (.node nm a1 (.text s)) (F2.app (.cons b2 F3)))))) 0))
      = .untouched := by
  have h := transform_dup_error root nm v s ra a1 F1 F2 F3 b2 hdoc h1 h2 hb2
  exact ⟨h, by rw [filter_file, h]⟩

/-- The spec's duplicate example `<Root><B>1</B><B>2</B></Root>`. -/
def dupDoc : XTree :=
  .node "Root" [] (.children
    (XForest.nil.app (.cons (.node "B" [] (.text "1"))
      (XForest.nil.app (.cons (.node "B" [] (.text "2")) .nil)))))

theorem duplicate_detection_amended_witness :
    (canonicalT dupDoc = true ∧ (XTree.node "B" [] (.text "2")).name = "B")
    ∧ transformOutput "B" "x" (evsT dupDoc 0) = .error "Duplicate element: B"
    ∧ filter_file (transformOutput "B" "x") (.wellFormed (evsT dupDoc 0))
        = .untouched :=
  ⟨⟨by decide, rfl⟩,
    duplicate_detection_amended "Root" "B" "x" "1" [] [] .nil .nil .nil
      (.node "B" [] (.text "2")) (by decide) (by decide) (by decide) rfl⟩

/-- C6 counterexample.  With duplicated empty children `<B /><B />` the
failure is the plain content assertion, not the labelled
DuplicateElementError the claim promises for every duplicated target; no
output is written either way. -/
theorem duplicate_detection_claim_false :
    transformOutput "B" "v"
        [.startElem "Root" [], .startElem "B" [], .endElem "B",
          .startElem "B" [], .endElem "B", .endElem "Root"]
      = .error "AssertionError"
    ∧ ("AssertionError" : String) ≠ "Duplicate element: B"
    ∧ filter_file (transformOutput "B" "v")
        (.wellFormed [.startElem "Root" [], .startElem "B" [], .endElem "B",
          .startElem "B" [], .endElem "B", .endElem "Root"])
      = .untouched :=
  ⟨rfl, by decide, rfl⟩

/-! ## Idempotence of upsert -/

theorem isNil_app_cons (F1 : XForest) (b : XTree) (F2 : XForest) :
    (F1.app (.cons b F2)).isNil = false := by
  cases F1 <;> simp [XForest.app, XForest.isNil]

/-- Replacing the text body of the distinguished child preserves canonical
layout, provided the new content is itself canonical. -/
theorem canonical_replace (root nm v s : String) (ra a1 : Attrs)
    (F1 F2 : XForest) (hv : contentOk v = true)
    (hdoc : canonicalT (.node root ra (.children
        (F1.app (.cons (.node nm a1 (.text s)) F2)))) = true) :
    canonicalT (.node root ra (.children
        (F1.app (.cons (.node nm a1 (.text v)) F2)))) = true := by
  simp [canonicalT, canonicalB, canonicalF_app, canonicalF, isNil_app_cons, hv]
    at hdoc ⊢
  simp_all

/-- Appending a fresh text child preserves canonical layout. -/
theorem canonical_extend (root nm v : String) (ra : Attrs) (S : XForest)
    (hnm : nameOk nm = true) (hv : contentOk v = true)
    (hdoc : canonicalT (.node root ra (.children S)) = true) :
    canonicalT (.node root ra (.children
        (S.app (.cons (.node nm [] (.text v)) .nil)))) = true := by
  simp [canonicalT, canonicalB, canonicalF_app, canonicalF, isNil_app_cons,
    hv, hnm, attrsOk] at hdoc ⊢
  simp_all

/-- One upsert pass over a canonical document whose root holds the target
child (text body, no duplicate): the output is the canonical text of the
document with that child's content replaced. -/
theorem upsert_found_run (root nm v s : String) (ra a1 : Attrs)
    (F1 F2 : XForest)
    (hdoc : canonicalT (.node root ra (.children
        (F1.app (.cons (.node nm a1 (.text s)) F2)))) = true)
    (hv : contentOk v = true)
    (h1 : nmFree nm F1 = true) (h2 : nmFree nm F2 = true) :
    transformOutput nm v (evsT (.node root ra (.children
        (F1.app (.cons (.node nm a1 (.text s)) F2)))) 0)
      = .ok (docText (.node root ra (.children
          (F1.app (.cons (.node nm a1 (.text v)) F2))))) := by
  have hdocV := canonical_replace root nm v s ra a1 F1 F2 hv hdoc
  have hsh : nevsT (.node root ra (.children
      (F1.app (.cons (.node nm a1 (.text s)) F2))))
      = .startElem root ra ::
        (nevsF F1 ++ (.startElem nm a1 :: .chars s :: .endElem nm ::
          (nevsF F2 ++ (.endElem root :: [])))) := by
    simp [nevsT, nevsF, nevsF_app]
  have hsc := setContentFoundRun nm v a1 s F1 F2 root [] h1 h2
  rw [transformOutput, fc_canonical _ hdoc, hsh, upsertChildContent]
  simp only [hsc]
  rw [← render_canonical _ hdocV]
  congr 1
  simp [nevsT, nevsF, nevsF_app]

/-- One upsert pass over a canonical document whose root lacks the target
child: the output is the canonical text of the document with a fresh text
child appended as the last child. -/
theorem upsert_missing_run (root nm v : String) (ra : Attrs) (S : XForest)
    (hdoc : canonicalT (.node root ra (.children S)) = true)
    (hnm : nameOk nm = true) (hv : contentOk v = true)
    (hS : nmFree nm S = true) :
    transformOutput nm v (evsT (.node root ra (.children S)) 0)
      = .ok (docText (.node root ra (.children
          (S.app (.cons (.node nm [] (.text v)) .nil))))) := by
  have hdocV := canonical_extend root nm v ra S hnm hv hdoc
  have hsh : nevsT (.node root ra (.children S))
      = .startElem root ra :: (nevsF S ++ (.endElem root :: [])) := by
    simp [nevsT]
  have hsc := setContentMissingRun nm v S root [] hS
  rw [transformOutput, fc_canonical _ hdoc, hsh, upsertChildContent]
  simp only [hsc]
  rw [← render_canonical _ hdocV]
  congr 1
  simp [nevsT, nevsF, nevsF_app]

/-- C4 (amended).  For canonical documents and content values that are
themselves canonical text content (nonempty, no markup characters, not
whitespace-with-line-break), upserting is idempotent across two
independent passes: the first pass produces the upserted document's
canonical text, and a second pass over that text's tokenizer items
reproduces it byte-identically — in the replace case and in the append
case.  (For other content values the second pass fails; with markup
characters in the value the tokenizer fails and the partially-buffered
output overwrites the destination — see the counterexample.) -/
theorem upsert_idempotent_amended :
    (∀ (root nm v s : String) (ra a1 : Attrs) (F1 F2 : XForest),
      canonicalT (.node root ra (.children
          (F1.app (.cons (.node nm a1 (.text s)) F2)))) = true →
      contentOk v = true → nmFree nm F1 = true → nmFree nm F2 = true →
      transformOutput nm v (evsT (.node root ra (.children
          (F1.app (.cons (.node nm a1 (.text s)) F2)))) 0)
        = .ok (docText (.node root ra (.children
            (F1.app (.cons (.node nm a1 (.text v)) F2)))))
      ∧ transformOutput nm v (evsT (.node root ra (.children
          (F1.app (.cons (.node nm a1 (.text v)) F2)))) 0)
        = .ok (docText (.node root ra (.children
            (F1.app (.cons (.node nm a1 (.text v)) F2))))))
    ∧ (∀ (root nm v : String) (ra : Attrs) (S : XForest),
      canonicalT (.node root ra (.children S)) = true →
      nameOk nm = true → contentOk v = true → nmFree nm S = true →
      transformOutput nm v (evsT (.node root ra (.children S)) 0)
        = .ok (docText (.node root ra (.children
            (S.app (.cons (.node nm [] (.text v)) .nil)))))
      ∧ transformOutput nm v (evsT (.node root ra (.children
          (S.app (.cons (.node nm [] (.text v)) .nil)))) 0)
        = .ok (docText (.node root ra (.children
            (S.app (.cons (.node nm [] (.text v)) .nil)))))) := by
  constructor
  · intro root nm v s ra a1 F1 F2 hdoc hv h1 h2
    refine ⟨upsert_found_run root nm v s ra a1 F1 F2 hdoc hv h1 h2, ?_⟩
    exact upsert_found_run root nm v v ra a1 F1 F2
      (canonical_replace root nm v s ra a1 F1 F2 hv hdoc) hv h1 h2
  · intro root nm v ra S hdoc hnm hv hS
    refine ⟨upsert_missing_run root nm v ra S hdoc hnm hv hS, ?_⟩
    exact upsert_found_run root nm v v ra [] S .nil
      (canonical_extend root nm v ra S hnm hv hdoc) hv hS rfl

/-- The spec's insertion-ordering document `<Root><A /></Root>`. -/
def insDoc : XForest := .cons (.node "A" [] .empty) .nil

theorem upsert_idempotent_amended_witness :
    (canonicalT (.node "Root" [] (.children insDoc)) = true
      ∧ nameOk "B" = true ∧ contentOk "val" = true ∧ nmFree "B" insDoc = true)
    ∧ transformOutput "B" "val" (evsT (.node "Root" [] (.children insDoc)) 0)
        = .ok (docText (.node "Root" [] (.children
            (insDoc.app (.cons (.node "B" [] (.text "val")) .nil)))))
    ∧ transformOutput "B" "val" (evsT (.node "Root" [] (.children
          (insDoc.app (.cons (.node "B" [] (.text "val")) .nil)))) 0)
        = .ok (docText (.node "Root" [] (.children
            (insDoc.app (.cons (.node "B" [] (.text "val")) .nil))))) :=
  ⟨⟨by decide, by decide, by decide, by decide⟩,
    (upsert_idempotent_amended.2 "Root" "B" "val" [] insDoc (by decide)
      (by decide) (by decide) (by decide)).1,
    (upsert_idempotent_amended.2 "Root" "B" "val" [] insDoc (by decide)
      (by decide) (by decide) (by decide)).2⟩

/-- Modelled from the spec: the external tokenizer's outcome for the second
pass of the counterexample below.  The first pass on `<Root />` with
content value `"a<b"` writes
`<?xml …?>\r\n<Root>\r\n  <B>a<b</B>\r\n</Root>`, which is malformed
markup: per the adapter contract (spec sections 4.1 and 6) the tokenizer
delivers the items before the offending `<` inside the `B` element — the
root's `start_elem`, the layout character data, the `B` `start_elem` and
the character data `"a"` — and then reports the error. -/
def malformedRewriteParse : ParseOutcome :=
  .malformed [.startElem "Root" [], .chars "\n  ", .startElem "B" [],
    .chars "a"]

/-- C4 counterexample.  With content value `"a<b"` the first pass succeeds,
but the second pass's tokenizer fails on the unescaped markup; the rewrite
driver swallows the tokenizer error and overwrites the destination with
the partial buffer (just the declaration line), so the two-pass result
differs from the one-pass result. -/
theorem upsert_idempotent_claim_false :
    transformOutput "B" "a<b" [.startElem "Root" [], .endElem "Root"]
      = .ok (xmlDecl ++ "\r\n<Root>\r\n  <B>a<b</B>\r\n</Root>")
    ∧ filter_file (transformOutput "B" "a<b") malformedRewriteParse
        = .written xmlDecl
    ∧ (xmlDecl : String) ≠ xmlDecl ++ "\r\n<Root>\r\n  <B>a<b</B>\r\n</Root>" :=
  ⟨rfl, rfl, by decide⟩

/-! ## Rewrite failure behaviour -/

/-- The items the tokenizer delivered, in either outcome. -/
def ParseOutcome.events : ParseOutcome → List Event
  | .wellFormed evs => evs
  | .malformed delivered => delivered

/-- C2 (amended).  A failure raised by a pipeline stage (assertion,
duplicate-element or usage error) propagates and the destination is left
unmodified; but when the tokenizer itself detects malformed markup, the
error is merely reported and the output buffered from the delivered prefix
is still written to the destination. -/
theorem rewrite_atomicity_amended :
    (∀ (p : List Event → Except String String) (po : ParseOutcome) (m : String),
        p po.events = .error m → filter_file p po = .untouched)
    ∧ (∀ (p : List Event → Except String String) (pre : List Event) (t : String),
        p pre = .ok t → filter_file p (.malformed pre) = .written t) := by
  constructor
  · intro p po m hp
    cases po with
    | wellFormed evs =>
      rw [ParseOutcome.events] at hp
      rw [filter_file, hp]
    | malformed delivered =>
      rw [ParseOutcome.events] at hp
      rw [filter_file, hp]
  · intro p pre t hp
    rw [filter_file, hp]

theorem rewrite_atomicity_amended_witness :
    (renderOutput (ParseOutcome.events (.wellFormed [.startElem "A" [], .endElem "B"]))
        = .error "AssertionError"
      ∧ filter_file renderOutput (.wellFormed [.startElem "A" [], .endElem "B"])
        = .untouched)
    ∧ (renderOutput [] = .ok xmlDecl
      ∧ filter_file renderOutput (.malformed []) = .written xmlDecl) :=
  ⟨⟨rfl, rewrite_atomicity_amended.1 renderOutput
      (.wellFormed [.startElem "A" [], .endElem "B"]) "AssertionError" rfl⟩,
    ⟨rfl, rewrite_atomicity_amended.2 renderOutput [] xmlDecl rfl⟩⟩

/-- C2 counterexample.  A tokenizer failure on the very first byte still
ends with the destination overwritten (with the declaration line that
`to_strings` emits on priming): the rewrite path is not atomic under
tokenizer errors, because `process_file` catches and swallows
`ExpatError` and `filter_file` then writes the buffer unconditionally. -/
theorem rewrite_atomicity_claim_false :
    filter_file renderOutput (.malformed []) = .written xmlDecl
    ∧ WriteOutcome.written xmlDecl ≠ WriteOutcome.untouched :=
  ⟨rfl, by decide⟩

/-! ## Normalizer classification -/

theorem fc_accum : ∀ (p : String) (ps : List String) (c : String) (hb : Bool)
    (rest : List Event),
    filter_chars (some c) hb ((p :: ps).map Event.chars ++ rest)
      = filter_chars (some (List.foldl (fun x y => x ++ y) c (p :: ps))) true rest
  | p, [], c, hb, rest => by simp [filter_chars, List.foldl]
  | p, q :: qs, c, hb, rest => by
    have h1 : filter_chars (some c) hb ((p :: q :: qs).map Event.chars ++ rest)
        = filter_chars (some (c ++ p)) true ((q :: qs).map Event.chars ++ rest) := rfl
    rw [h1, fc_accum q qs (c ++ p) true rest]
    simp [List.foldl]

theorem foldl_append_data (ps : List String) : ∀ (c : String),
    (List.foldl (fun x y => x ++ y) c ps).data
      = c.data ++ (ps.map String.data).flatten := by
  induction ps with
  | nil => intro c; simp
  | cons p ps ih =>
    intro c
    simp [List.foldl, ih, String.data_append]

theorem str_eq_empty_iff (s : String) : s = "" ↔ s.data = [] := by
  constructor
  · intro h; rw [h]
  · intro h; exact String.ext (by simpa using h)

theorem foldl_append_ne_empty (p : String) (ps : List String) (hp : p ≠ "") :
    List.foldl (fun x y => x ++ y) "" (p :: ps) ≠ "" := by
  intro hcon
  rw [str_eq_empty_iff, foldl_append_data] at hcon
  simp only [List.map_cons, List.flatten_cons, List.nil_append,
    List.append_eq_nil] at hcon
  exact hp ((str_eq_empty_iff p).2 hcon.1)

/-- C7.  On an element's `end_elem` the normalizer emits nothing extra when
the accumulated content is empty (no `chars` arrived); a single `NoOp`
when the nonempty accumulation is whitespace containing a line break; and
otherwise exactly one consolidated `chars` carrying the full accumulated
content — stated for `chars` runs of nonempty pieces, which is what the
tokenizer delivers. -/
theorem normalizer_classification :
    ∀ (n : String) (a : Attrs) (ps : List String) (c : Option String)
      (hb : Bool) (rest : List Event), (∀ p ∈ ps, p ≠ "") →
    filter_chars c hb
        (.startElem n a :: (ps.map Event.chars ++ (.endElem n :: rest)))
      = .startElem n a ::
          ((if List.foldl (fun x y => x ++ y) "" ps = "" then []
            else if strContainsNl (List.foldl (fun x y => x ++ y) "" ps)
                && pyStripEmpty (List.foldl (fun x y => x ++ y) "" ps) then
              [Event.noop]
            else [Event.chars (List.foldl (fun x y => x ++ y) "" ps)])
            ++ (.endElem n :: filter_chars none false rest)) := by
  intro n a ps c hb rest hps
  cases ps with
  | nil =>
    simp [filter_chars, List.foldl]
  | cons p qs =>
    have hne := foldl_append_ne_empty p qs (hps p (by simp))
    have h1 : filter_chars c hb
        (.startElem n a :: ((p :: qs).map Event.chars ++ (.endElem n :: rest)))
        = .startElem n a ::
            filter_chars (some "") false
              ((p :: qs).map Event.chars ++ (.endElem n :: rest)) := rfl
    rw [h1, fc_accum p qs "" false (.endElem n :: rest), if_neg hne]
    simp only [filter_chars]

theorem normalizer_classification_witness :
    (∀ p ∈ ["  ", "\n"], p ≠ "")
    ∧ filter_chars none false
        (.startElem "A" [] :: (["  ", "\n"].map Event.chars ++ (.endElem "A" :: [])))
      = .startElem "A" [] ::
          ((if List.foldl (fun x y => x ++ y) "" ["  ", "\n"] = "" then []
            else if strContainsNl (List.foldl (fun x y => x ++ y) "" ["  ", "\n"])
                && pyStripEmpty (List.foldl (fun x y => x ++ y) "" ["  ", "\n"]) then
              [Event.noop]
            else [Event.chars (List.foldl (fun x y => x ++ y) "" ["  ", "\n"])])
            ++ (.endElem "A" :: filter_chars none false [])) :=
  ⟨by decide,
    normalizer_classification "A" [] ["  ", "\n"] none false [] (by decide)⟩

/-! ## Normalizer output invariant -/

/-- The input stream carries no `noop` items (true of tokenizer output). -/
def noNoopIn (evs : List Event) : Bool :=
  evs.all (fun e => !e.isNoop)

/-- Every `chars` and every `noop` item of the stream is immediately
followed by an `end_elem` item. -/
def sepOk : List Event → Bool
  | [] => true
  | .chars _ :: rest =>
    (match rest with | .endElem _ :: _ => true | _ => false) && sepOk rest
  | .noop :: rest =>
    (match rest with | .endElem _ :: _ => true | _ => false) && sepOk rest
  | _ :: rest => sepOk rest

/-- C10.  In the normalizer's output every `chars` and every `noop` is
immediately followed by an `end_elem`; and character data received while
no accumulator is active (content state `None`) is dropped, never
forwarded. -/
theorem normalizer_output_invariant :
    (∀ (evs : List Event) (c : Option String) (hb : Bool),
        noNoopIn evs = true → sepOk (filter_chars c hb evs) = true)
    ∧ (∀ (s : String) (hb : Bool) (rest : List Event),
        filter_chars none hb (.chars s :: rest) = filter_chars none hb rest) := by
  constructor
  · intro evs
    induction evs with
    | nil => intro c hb _; simp [filter_chars, sepOk]
    | cons e rest ih =>
      intro c hb hno
      have hno2 : noNoopIn rest = true := by
        rw [noNoopIn, List.all_cons, Bool.and_eq_true] at hno
        exact hno.2
      cases e with
      | startElem n a =>
        simp only [filter_chars, sepOk]
        exact ih (some "") false hno2
      | chars s =>
        cases c with
        | some cc => simpa [filter_chars] using ih (some (cc ++ s)) true hno2
        | none => simpa [filter_chars] using ih none hb hno2
      | endElem n =>
        cases c with
        | none =>
          simpa [filter_chars, sepOk] using ih none false hno2
        | some cc =>
          cases hb with
          | false =>
            simpa [filter_chars, sepOk] using ih none false hno2
          | true =>
            by_cases hcond : (strContainsNl cc && pyStripEmpty cc) = true
            · simp [filter_chars, hcond, sepOk]
              exact ih none false hno2
            · simp [filter_chars, hcond, sepOk]
              exact ih none false hno2
      | noop =>
        rw [noNoopIn, List.all_cons] at hno
        simp [Event.isNoop] at hno
  · intro s hb rest
    rfl

theorem normalizer_output_invariant_witness :
    (noNoopIn [.startElem "A" [], .chars "x", .endElem "A", .chars "\n",
        .startElem "B" [], .endElem "B", .endElem "Root"] = true
      ∧ sepOk (filter_chars none false
          [.startElem "A" [], .chars "x", .endElem "A", .chars "\n",
            .startElem "B" [], .endElem "B", .endElem "Root"]) = true)
    ∧ filter_chars none false (.chars "\n  " :: [.startElem "C" [], .endElem "C"])
        = filter_chars none false [.startElem "C" [], .endElem "C"] :=
  ⟨⟨by decide,
      normalizer_output_invariant.1
        [.startElem "A" [], .chars "x", .endElem "A", .chars "\n",
          .startElem "B" [], .endElem "B", .endElem "Root"] none false (by decide)⟩,
    normalizer_output_invariant.2 "\n  " false [.startElem "C" [], .endElem "C"]⟩

/-! ## Multi-line content rendering -/

/-- No line break anywhere in the string. -/
def noNl (s : String) : Bool :=
  !strContainsNl s

theorem str_assoc (a b c : String) : (a ++ b) ++ c = a ++ (b ++ c) :=
  String.ext (by simp [String.data_append])

theorem nlfree_chars {s : String} (hs : noNl s = true) :
    ∀ c ∈ s.data, ¬ c = '\n' := by
  intro c hc
  rw [noNl, Bool.not_eq_true', strContainsNl] at hs
  intro hcon
  have := List.any_eq_false.mp hs c hc
  simp [hcon] at this

theorem splitNlChars_nlfree (x : List Char) (hx : ∀ c ∈ x, ¬ c = '\n') :
    splitNlChars x = [String.mk x] := by
  induction x with
  | nil => rfl
  | cons c cs ih =>
    have hc : ¬ c = '\n' := hx c (by simp)
    have ihh := ih (fun c2 hc2 => hx c2 (List.mem_cons_of_mem _ hc2))
    rw [splitNlChars, if_neg hc, ihh]
    have hm : String.mk [c] ++ String.mk cs = String.mk (c :: cs) := rfl
    simp [hm]

theorem splitNlChars_append_nlfree (x : List Char) (hx : ∀ c ∈ x, ¬ c = '\n') :
    ∀ (y : List Char) (h : String) (t : List String),
    splitNlChars y = h :: t → splitNlChars (x ++ y) = (String.mk x ++ h) :: t := by
  induction x with
  | nil =>
    intro y h t hy
    have he : String.mk [] ++ h = h := by
      apply String.ext
      simp [String.data_append]
    simpa [he] using hy
  | cons c cs ih =>
    intro y h t hy
    have hc : ¬ c = '\n' := hx c (by simp)
    have ihh := ih (fun c2 hc2 => hx c2 (List.mem_cons_of_mem _ hc2)) y h t hy
    have hm : String.mk [c] ++ (String.mk cs ++ h) = String.mk (c :: cs) ++ h := by
      apply String.ext
      simp [String.data_append]
    rw [List.cons_append, splitNlChars, if_neg hc, ihh, ← hm]

/-- The rendered lines of an inline element whose content has embedded line
breaks: the first line carries the indent and the open tag, the middle
lines are the raw middle parts, and the last line ends with the close
tag. -/
def contLines (first : String) (ps : List String) (close : String) : List String :=
  match ps with
  | [] => [first ++ close]
  | p :: ps2 => first :: contLines p ps2 close

theorem splitNl_join (p0 : String) (ps : List String) (close : String)
    (h0 : noNl p0 = true) (hps : ∀ p ∈ ps, noNl p = true)
    (hcl : noNl close = true) :
    ∀ (pre : String), noNl pre = true →
    splitNl (pre ++ (joinNl (p0 :: ps) ++ close)) = contLines (pre ++ p0) ps close := by
  induction ps generalizing p0 with
  | nil =>
    intro pre hpre
    rw [joinNl, splitNl, contLines]
    have hall : ∀ c ∈ (pre ++ (p0 ++ close)).data, ¬ c = '\n' := by
      intro c hc
      simp only [String.data_append, List.mem_append] at hc
      rcases hc with h | h | h
      · exact nlfree_chars hpre c h
      · exact nlfree_chars h0 c h
      · exact nlfree_chars hcl c h
    rw [splitNlChars_nlfree _ hall]
    have hmk : String.mk (pre ++ (p0 ++ close)).data = pre ++ (p0 ++ close) := rfl
    rw [hmk, ← str_assoc]
  | cons q qs ih =>
    intro pre hpre
    have hq : noNl q = true := hps q (by simp)
    have hqs : ∀ p ∈ qs, noNl p = true := fun p hp => hps p (by simp [hp])
    have htail : splitNlChars ((joinNl (q :: qs) ++ close).data)
        = contLines q qs close := by
      have hih := ih q hq hqs "" (by decide)
      have hemp : ("" : String) ++ (joinNl (q :: qs) ++ close)
          = joinNl (q :: qs) ++ close := by
        apply String.ext
        simp [String.data_append]
      have hemp2 : ("" : String) ++ q = q := by
        apply String.ext
        simp [String.data_append]
      rw [hemp, hemp2, splitNl] at hih
      exact hih
    have hA : ∀ c ∈ (pre ++ p0).data, ¬ c = '\n' := by
      intro c hc
      simp only [String.data_append, List.mem_append] at hc
      rcases hc with h | h
      · exact nlfree_chars hpre c h
      · exact nlfree_chars h0 c h
    have hy : splitNlChars ('\n' :: (joinNl (q :: qs) ++ close).data)
        = "" :: contLines q qs close := by
      rw [splitNlChars, if_pos rfl, htail]
    have hnl : ("\n" : String).data = ['\n'] := rfl
    have hXdata : (pre ++ (joinNl (p0 :: q :: qs) ++ close)).data
        = (pre ++ p0).data ++ ('\n' :: (joinNl (q :: qs) ++ close).data) := by
      simp [joinNl, String.data_append, hnl]
    rw [splitNl, hXdata, splitNlChars_append_nlfree _ hA _ _ _ hy]
    have hh : String.mk (pre ++ p0).data ++ "" = pre ++ p0 := by
      apply String.ext
      simp [String.data_append]
    rw [hh, contLines]

/-- C9 (amended).  A `content_elem_line` whose content embeds line breaks
is split into multiple literal output lines, but the indent is prepended
only once, to the whole element string: the first output line carries the
indent and open tag, the middle lines are the raw content parts, and the
last line is the raw final part followed by the close tag — continuation
lines do not receive the indent. -/
theorem multiline_content_lines (d : Int) (n : String) (a : Attrs)
    (p0 : String) (ps : List String) (rest : List (Int × Line))
    (hpre : noNl (xml_indent d ++ xml_tag_open_elem n a) = true)
    (hcl : noNl (xml_tag_close_elem n) = true)
    (h0 : noNl p0 = true) (hps : ∀ p ∈ ps, noNl p = true) :
    to_strings ((d, .contentLine n a (joinNl (p0 :: ps))) :: rest)
      = contLines (xml_indent d ++ xml_tag_open_elem n a ++ p0) ps
          (xml_tag_close_elem n) ++ to_strings rest := by
  rw [to_strings, toStringsLine, str_assoc,
    splitNl_join p0 ps (xml_tag_close_elem n) h0 hps hcl
      (xml_indent d ++ xml_tag_open_elem n a) hpre]

theorem multiline_content_lines_witness :
    (noNl (xml_indent 1 ++ xml_tag_open_elem "A" []) = true
      ∧ noNl (xml_tag_close_elem "A") = true
      ∧ noNl "x" = true ∧ (∀ p ∈ ["y"], noNl p = true))
    ∧ to_strings [((1 : Int), .contentLine "A" [] (joinNl ["x", "y"]))]
      = contLines (xml_indent 1 ++ xml_tag_open_elem "A" [] ++ "x") ["y"]
          (xml_tag_close_elem "A") ++ to_strings [] :=
  ⟨⟨by decide, by decide, by decide, by decide⟩,
    multiline_content_lines 1 "A" [] "x" ["y"] [] (by decide) (by decide)
      (by decide) (by decide)⟩

/-- C9 counterexample.  At depth 1 the rendered lines of
`ContentLine "A" [] "x\ny"` are `"  <A>x"` and `"y</A>"`: the second line
does not begin with the two-space indent the claim promises for every
line. -/
theorem multiline_indent_claim_false :
    to_strings [((1 : Int), .contentLine "A" [] "x\ny")] = ["  <A>x", "y</A>"]
    ∧ ("y</A>" : String).data.take 2 ≠ ("  " : String).data :=
  ⟨rfl, by decide⟩
